import Mathlib

/-!
Shallow embedding of `src/main.rs` of the rustysynth-test demo program.

The program is glue code around two external libraries (the `rustysynth`
synthesizer and the `sfml` multimedia bindings).  We embed the code that the
repository itself contains:

* the `MidiMusicStream` sound-stream adapter (`get_data`): conversion of the
  rendered stereo float block to interleaved 16-bit samples with clamping, and
  the publication of a decimated waveform snapshot into the mutex-guarded
  relay buffer;
* the waveform-smoothing step of the render loop in `main`;
* the event handling of the render loop (`Event::Closed => window.close()`);
* the command-line argument handling at the top of `main`;
* `draw_waveform`.

Modelling conventions:

* Audio samples are modelled as rationals (`ℚ`).  Every finite `f32`/`f64`
  value is a rational, and each floating-point operation the embedded code
  performs is exact on the values it is applied to: multiplication by
  `32768 = 2^15` and by `0.5 = 2^-1` is exact binary-exponent shifting, and
  the decimation index `(i as f64) / 1024.0 * 2205.0` is exact because
  `i / 1024` has at most 10 significant bits and the product at most 22,
  far below the 53-bit `f64` mantissa.  (`NaN`/infinite samples are outside
  the model; the additions `left[j] + right[j]` and
  `0.5 * waveform[i] + 0.5 * a[i]` are taken exactly, which is where the
  rational model idealises `f32` rounding.)
* the Rust `as` cast from a float to `i32` truncates toward zero and saturates
  at the `i32` bounds; `as usize` on a non-negative in-range float truncates.
* Slice indexing is fallible: reads are embedded with `l[i]?`
  (`Option`-returning) and writes with `setOpt`, which fails out of bounds
  exactly where the Rust indexing would panic, so a returned `some` means no
  panic branch was reached.
* The external sequencer is abstracted by oracles `fL fR : Nat → ℚ` giving
  the samples that `sequencer.render` writes into `self.left` / `self.right`;
  `render` fills exactly the slices it is handed, so the new contents are the
  oracle evaluated on `0, ..., len - 1`.
* The mutex-guarded relay buffer is passed in and out explicitly: one
  `get_data` call and one render-loop read are each a single critical
  section, so holding the lock is modelled by the step functions acting
  atomically on the buffer value.
-/

namespace RustySynthTest

/-- Rust constant `WAVEFORM_LENGTH: usize = 1024`. -/
def WAVEFORM_LENGTH : Nat := 1024

/-- Rust constant `SAMPLE_RATE: u32 = 44100`. -/
def SAMPLE_RATE : Nat := 44100

/-- Rust constant `SAMPLE_MIN: i32 = i16::MIN as i32`. -/
def SAMPLE_MIN : Int := -32768

/-- Rust constant `SAMPLE_MAX: i32 = i16::MAX as i32`. -/
def SAMPLE_MAX : Int := 32767

/-- Rust local `batch_length = (MidiMusicStream::SAMPLE_RATE / 20) as usize` (= 2205). -/
def batch_length : Nat := SAMPLE_RATE / 20

/-- Lower saturation bound of the Rust `as i32` cast from a float (`-2^31`). -/
def I32_MIN : Int := -2147483648

/-- Upper saturation bound of the Rust `as i32` cast from a float (`2^31 - 1`). -/
def I32_MAX : Int := 2147483647

/-- Truncation toward zero of a rational, the rounding used by the Rust
float-to-integer `as` casts. -/
def ratTrunc (q : ℚ) : Int := if 0 ≤ q then ⌊q⌋ else ⌈q⌉

/-- the Rust `as i32` cast of a (finite) float value: truncate toward zero and
saturate at the `i32` bounds. -/
def i32cast (q : ℚ) : Int := max I32_MIN (min I32_MAX (ratTrunc q))

/-- The per-sample conversion in `get_data`:
`let mut s = (32768_f32 * x) as i32; if s < SAMPLE_MIN { s = SAMPLE_MIN };
if s > SAMPLE_MAX { s = SAMPLE_MAX }; s as i16`.
Multiplying a finite `f32` by `32768 = 2^15` is exact (only the exponent
changes), so the cast argument is the exact rational `32768 * x`; an `f32`
product overflowing to infinity casts to a saturated `i32`, which the unbounded model `ratTrunc` followed by the same saturation also yields.  The final
`as i16` cast is applied to a value already clamped into `i16` range and is
the identity there. -/
def convertSample (x : ℚ) : Int :=
  let s := i32cast (32768 * x)
  let s1 := if s < SAMPLE_MIN then SAMPLE_MIN else s
  if s1 > SAMPLE_MAX then SAMPLE_MAX else s1

/-- Bounds-checked in-place update: the Rust `l[i] = v`, which panics (here:
`none`) when `i` is out of bounds. -/
def setOpt {α : Type} (l : List α) (i : Nat) (v : α) : Option (List α) :=
  if i < l.length then some (l.set i v) else none

/-- The batch-filling loop of `get_data`, unrolled from the end:
`writeBatch left right batch n` performs the iterations `t = 0, ..., n - 1`
of

```text
for t in 0..length {
    let sample_left  = convert(left[t]);
    let sample_right = convert(right[t]);
    let offset = 2 * t;
    self.batch[offset + 0] = sample_left;
    self.batch[offset + 1] = sample_right;
}
```

on the list `batch`, with fallible indexing. -/
def writeBatch (left right : List ℚ) (batch : List Int) : Nat → Option (List Int)
  | 0 => some batch
  | n + 1 => do
    let b ← writeBatch left right batch n
    let l ← left[n]?
    let r ← right[n]?
    let b1 ← setOpt b (2 * n) (convertSample l)
    setOpt b1 (2 * n + 1) (convertSample r)

/-- The decimation index of the snapshot-publishing loop:
`let p: f64 = (i as f64) / (WAVEFORM_LENGTH as f64) * (batch_length as f64);
let j = p as usize;`.  The `f64` arithmetic is exact here (≤ 22 significant
bits), and `as usize` truncates the non-negative `p`. -/
def jIdx (i : Nat) : Nat :=
  (⌊(i : ℚ) / (WAVEFORM_LENGTH : ℚ) * (batch_length : ℚ)⌋).toNat

/-- The snapshot-publishing loop of `get_data`, unrolled from the end:
`publishWave left right n wave` performs the iterations `i = 0, ..., n - 1`
of

```text
for i in 0..WAVEFORM_LENGTH {
    let p: f64 = (i as f64) / (WAVEFORM_LENGTH as f64) * (batch_length as f64);
    let j = p as usize;
    a[i] = self.left[j] + self.right[j];
}
```

on the locked relay buffer `wave`, with fallible indexing. -/
def publishWave (left right : List ℚ) (wave : List ℚ) : Nat → Option (List ℚ)
  | 0 => some wave
  | n + 1 => do
    let w ← publishWave left right wave n
    let l ← left[jIdx n]?
    let r ← right[jIdx n]?
    setOpt w n (l + r)

/-- The mutable state of `struct MidiMusicStream` (the sequencer field is
abstracted by the render oracle, the mutex contents are passed separately). -/
structure MidiMusicStream where
  left : List ℚ
  right : List ℚ
  batch : List Int

/-- Constructor `MidiMusicStream::new`:
`left = vec![0.0; batch_length]`, `right = vec![0.0; batch_length]`,
`batch = vec![0; 2 * batch_length]`. -/
def MidiMusicStream.new : MidiMusicStream :=
  { left := List.replicate batch_length 0
    right := List.replicate batch_length 0
    batch := List.replicate (2 * batch_length) 0 }

/-- Method `SoundStream::get_data` for `MidiMusicStream`.  `fL`/`fR` are the oracle
for what `self.sequencer.render(&mut self.left[..], &mut self.right[..])`
writes; `render` fills exactly the slices it receives, so the new buffer
contents are the oracle on indices `0, ..., len - 1`.  Returns the updated
stream state, the updated relay-buffer contents, the returned sample batch
and the continuation flag (the literal `true` of `(&mut self.batch[..], true)`). -/
def get_data (s : MidiMusicStream) (wave : List ℚ) (fL fR : Nat → ℚ) :
    Option (MidiMusicStream × List ℚ × List Int × Bool) := do
  let left := (List.range s.left.length).map fL
  let right := (List.range s.right.length).map fR
  let length := left.length
  let batch ← writeBatch left right s.batch length
  let wave2 ← publishWave left right wave WAVEFORM_LENGTH
  some ({ left := left, right := right, batch := batch }, wave2, batch, true)

/-- The length invariant that `MidiMusicStream::new` establishes and
`get_data` maintains. -/
def goodStream (s : MidiMusicStream) : Prop :=
  s.left.length = batch_length ∧ s.right.length = batch_length ∧
    s.batch.length = 2 * batch_length

/-- Rust local `wav = vec![0_f32; WAVEFORM_LENGTH]`, the initial contents of the
mutex-guarded relay buffer created in `main`. -/
def wavInit : List ℚ := List.replicate WAVEFORM_LENGTH 0

/-- The waveform-smoothing loop of the render loop, unrolled from the end:
`smoothWaveform a waveform n` performs the iterations `i = 0, ..., n - 1` of

```text
for i in 0..WAVEFORM_LENGTH {
    waveform[i] = 0.5_f32 * waveform[i] + 0.5_f32 * a[i];
}
```

where `a` is the locked relay buffer, with fallible indexing. -/
def smoothWaveform (a : List ℚ) (waveform : List ℚ) : Nat → Option (List ℚ)
  | 0 => some waveform
  | n + 1 => do
    let w ← smoothWaveform a waveform n
    let wi ← w[n]?
    let ai ← a[n]?
    setOpt w n (1 / 2 * wi + 1 / 2 * ai)

/-- One pass of the render loop over the shared buffer: lock the mutex, run
the smoothing loop against the relayed snapshot, unlock.  Returns the relay
buffer (which the read does not modify) together with the new `waveform`. -/
def renderIteration (relay waveform : List ℚ) : Option (List ℚ × List ℚ) := do
  let w ← smoothWaveform relay waveform WAVEFORM_LENGTH
  some (relay, w)

/-- The SFML events the event loop can poll: `Event::Closed` is handled, all
other variants (abstracted by a numeric tag) fall into the `_ => {}` arm. -/
inductive SfmlEvent where
  | Closed : SfmlEvent
  | Other : Nat → SfmlEvent
deriving DecidableEq

/-- One arm of `match event { Event::Closed => window.close(), _ => {} }`,
acting on the window open-state flag. -/
def handleEvent (isOpen : Bool) : SfmlEvent → Bool
  | SfmlEvent.Closed => false
  | SfmlEvent.Other _ => isOpen

/-- The inner `while let Some(event) = window.poll_event()` loop of one render
iteration: process the polled events in order. -/
def pollEvents (isOpen : Bool) (evs : List SfmlEvent) : Bool :=
  evs.foldl handleEvent isOpen

/-- The externally observable actions of `main`, in program order. -/
inductive Effect where
  | printErr : String → Effect
  | printUsage : Effect
  | createWindow : Effect
  | openFile : String → Effect
  | startPlayback : Effect
deriving DecidableEq

/-- Error message printed when the soundfont argument is missing. -/
def msgMissingSoundfont : String := "Missing soundfont."

/-- Error message printed when the MIDI-file argument is missing. -/
def msgMissingMidiFile : String := "Missing path to midi file."

/-- The startup of `main`: `let mut args = std::env::args_os().skip(1);` then
two `let Some(..) = args.next() else { eprintln!(..); print_usage(); return }`
guards, followed (in source order) by creating the window, opening the
soundfont file, opening the MIDI file and starting playback.  `argv` is the
full OS argument list including the program name, which `skip(1)` drops. -/
def mainEffects (argv : List String) : List Effect :=
  match argv.drop 1 with
  | [] => [Effect.printErr msgMissingSoundfont, Effect.printUsage]
  | [_] => [Effect.printErr msgMissingMidiFile, Effect.printUsage]
  | soundfont_arg :: midi_arg :: _ =>
    [Effect.createWindow, Effect.openFile soundfont_arg,
      Effect.openFile midi_arg, Effect.startPlayback]

/-- An SFML color, `Color::rgb(r, g, b)`. -/
structure Color where
  r : Nat
  g : Nat
  b : Nat
deriving DecidableEq

/-- An SFML vertex: a color and a 2-D position (`f32` coordinates, modelled
as exact rationals). -/
structure Vertex where
  color : Color
  position : ℚ × ℚ
deriving DecidableEq

/-- Default vertex `Vertex::default()`: position `(0, 0)`, white color. -/
def defaultVertex : Vertex :=
  { color := { r := 255, g := 255, b := 255 }, position := (0, 0) }

/-- The vertex-filling loop of `draw_waveform`, unrolled from the end:
`drawLoop data vs n` performs the iterations `i = 0, ..., n - 1` of

```text
for i in 0..WAVEFORM_LENGTH {
    let offset = 4 * i;
    let val = data[i].abs();
    let col = Color::rgb(0, 100, 200);
    vs[offset + 0] = vertex(col, (i    , -300.0 * val + 384.0));
    vs[offset + 1] = vertex(col, (i + 1, -300.0 * val + 384.0));
    vs[offset + 2] = vertex(col, (i + 1,  300.0 * val + 384.0));
    vs[offset + 3] = vertex(col, (i    ,  300.0 * val + 384.0));
}
```

with fallible indexing. -/
def drawLoop (data : List ℚ) (vs : List Vertex) : Nat → Option (List Vertex)
  | 0 => some vs
  | n + 1 => do
    let v ← drawLoop data vs n
    let d ← data[n]?
    let val := |d|
    let col : Color := { r := 0, g := 100, b := 200 }
    let v1 ← setOpt v (4 * n)
      { color := col, position := ((n : ℚ), -300 * val + 384) }
    let v2 ← setOpt v1 (4 * n + 1)
      { color := col, position := ((n : ℚ) + 1, -300 * val + 384) }
    let v3 ← setOpt v2 (4 * n + 2)
      { color := col, position := ((n : ℚ) + 1, 300 * val + 384) }
    setOpt v3 (4 * n + 3)
      { color := col, position := ((n : ℚ), 300 * val + 384) }

/-- Function `draw_waveform`: start from `[Vertex::default(); 4 * WAVEFORM_LENGTH]`
and fill every quad; the result is the vertex array handed to
`draw_primitives(.., PrimitiveType::QUADS, ..)`. -/
def draw_waveform (data : List ℚ) : Option (List Vertex) :=
  drawLoop data (List.replicate (4 * WAVEFORM_LENGTH) defaultVertex) WAVEFORM_LENGTH

/-! ## Helper lemmas -/

/-- Truncation toward zero is bounded below by any integer bound on the
rational from above the bound. -/
theorem ratTrunc_ge {q : ℚ} {z : ℤ} (hz : 0 ≤ z) (h : (z : ℚ) ≤ q) :
    z ≤ ratTrunc q := by
  have hq : 0 ≤ q := le_trans (by exact_mod_cast hz) h
  rw [ratTrunc, if_pos hq]
  exact Int.le_floor.mpr h

/-- Truncation toward zero is bounded above by any non-positive integer bound
on the rational from below the bound. -/
theorem ratTrunc_le {q : ℚ} {z : ℤ} (hz : z ≤ 0) (hz2 : z ≠ 0)
    (h : q ≤ (z : ℚ)) : ratTrunc q ≤ z := by
  have hq : ¬(0 ≤ q) := by
    intro h0
    have : (z : ℚ) < 0 := by
      exact_mod_cast lt_of_le_of_ne hz hz2
    linarith
  rw [ratTrunc, if_neg hq]
  exact Int.ceil_le.mpr h

/-- The cascade "saturating `as i32` cast, then clamp below at `SAMPLE_MIN`,
then clamp above at `SAMPLE_MAX`" coincides with clamping the exact truncated
value into `[SAMPLE_MIN, SAMPLE_MAX]`, because the `i32` saturation bounds lie
outside the `i16` clamp bounds. -/
theorem convertSample_clamp (x : ℚ) :
    convertSample x = max SAMPLE_MIN (min SAMPLE_MAX (ratTrunc (32768 * x))) := by
  simp only [convertSample, i32cast, SAMPLE_MIN, SAMPLE_MAX, I32_MIN, I32_MAX,
    max_def, min_def]
  split_ifs <;> omega

/-- Lemma: `setOpt` succeeds exactly on an in-bounds index and then performs the
update. -/
theorem setOpt_some {α : Type} (l : List α) (i : Nat) (v : α)
    (h : i < l.length) : setOpt l i v = some (l.set i v) := by
  simp [setOpt, h]

/-- Inversion for `setOpt`: a successful write was in bounds and performed the
update. -/
theorem setOpt_eq_some {α : Type} {l m : List α} {i : Nat} {v : α}
    (h : setOpt l i v = some m) : i < l.length ∧ m = l.set i v := by
  by_cases hc : i < l.length
  · rw [setOpt, if_pos hc] at h
    exact ⟨hc, (Option.some.inj h).symm⟩
  · rw [setOpt, if_neg hc] at h
    exact absurd h (by simp)

/-! ## C1 -/

/-- C1: for every (finite) float sample `x`, the 16-bit output of the sample
conversion in `get_data` equals the truncation of `32768 * x` toward zero
clamped into `[-32768, 32767]`; every `x ≥ 32767 / 32768` maps to `32767`,
every `x ≤ -1` maps to `-32768`, and the result always lies in
`[-32768, 32767]` (saturation, never wrap-around). -/
theorem C1_sample_conversion (x : ℚ) :
    convertSample x = max SAMPLE_MIN (min SAMPLE_MAX (ratTrunc (32768 * x))) ∧
    SAMPLE_MIN ≤ convertSample x ∧ convertSample x ≤ SAMPLE_MAX ∧
    (32767 / 32768 ≤ x → convertSample x = 32767) ∧
    (x ≤ -1 → convertSample x = -32768) := by
  have hc := convertSample_clamp x
  refine ⟨hc, ?_, ?_, ?_, ?_⟩
  · rw [hc]; exact le_max_left _ _
  · rw [hc, SAMPLE_MIN, SAMPLE_MAX, max_def, min_def]
    split_ifs <;> omega
  · intro hx
    have h1 : ((32767 : ℤ) : ℚ) ≤ 32768 * x := by
      push_cast
      linarith
    have h2 : (32767 : ℤ) ≤ ratTrunc (32768 * x) :=
      ratTrunc_ge (by norm_num) h1
    rw [hc, SAMPLE_MIN, SAMPLE_MAX, max_def, min_def]
    split_ifs <;> omega
  · intro hx
    have h1 : 32768 * x ≤ ((-32768 : ℤ) : ℚ) := by
      push_cast
      linarith
    have h2 : ratTrunc (32768 * x) ≤ (-32768 : ℤ) :=
      ratTrunc_le (by norm_num) (by norm_num) h1
    rw [hc, SAMPLE_MIN, SAMPLE_MAX, max_def, min_def]
    split_ifs <;> omega

/-- Witness for C1 at the concrete saturating inputs `x = 1` and `x = -2`. -/
theorem C1_sample_conversion_witness :
    convertSample 1 = 32767 ∧ convertSample (-2) = -32768 :=
  ⟨(C1_sample_conversion 1).2.2.2.1 (by norm_num),
   (C1_sample_conversion (-2)).2.2.2.2 (by norm_num)⟩

/-- Characterization of the batch-filling loop: with all indices in bounds it
succeeds, preserves the batch length, stores the interleaved converted samples
at positions `2t` / `2t + 1` for every processed frame `t < n`, and leaves all
positions from `2n` on untouched. -/
theorem writeBatch_spec (left right : List ℚ) (batch : List Int) :
    ∀ n, n ≤ left.length → n ≤ right.length → 2 * n ≤ batch.length →
      ∃ b, writeBatch left right batch n = some b ∧
        b.length = batch.length ∧
        (∀ t, t < n → b[2 * t]? = (left[t]?).map convertSample ∧
          b[2 * t + 1]? = (right[t]?).map convertSample) ∧
        (∀ k, 2 * n ≤ k → b[k]? = batch[k]?) := by
  intro n
  induction n with
  | zero =>
    intro _ _ _
    exact ⟨batch, rfl, rfl, fun t ht => absurd ht (Nat.not_lt_zero t),
      fun k _ => rfl⟩
  | succ n ih =>
    intro h1 h2 h3
    obtain ⟨b, hb, hlen, hdone, hrest⟩ := ih (by omega) (by omega) (by omega)
    have hnl : n < left.length := by omega
    have hnr : n < right.length := by omega
    have hln : left[n]? = some left[n] := List.getElem?_eq_getElem hnl
    have hrn : right[n]? = some right[n] := List.getElem?_eq_getElem hnr
    have hs1 : 2 * n < b.length := by omega
    have hs2 : 2 * n + 1 < (b.set (2 * n) (convertSample left[n])).length := by
      rw [List.length_set]; omega
    refine ⟨(b.set (2 * n) (convertSample left[n])).set (2 * n + 1)
      (convertSample right[n]), ?_, ?_, ?_, ?_⟩
    · simp only [writeBatch, hb, hln, hrn, Option.bind_eq_bind,
        Option.some_bind, setOpt_some _ _ _ hs1, setOpt_some _ _ _ hs2]
    · rw [List.length_set, List.length_set, hlen]
    · intro t ht
      rcases Nat.lt_succ_iff_lt_or_eq.mp ht with h | h
      · constructor
        · rw [List.getElem?_set_ne (by omega), List.getElem?_set_ne (by omega)]
          exact (hdone t h).1
        · rw [List.getElem?_set_ne (by omega), List.getElem?_set_ne (by omega)]
          exact (hdone t h).2
      · subst h
        constructor
        · rw [List.getElem?_set_ne (by omega), List.getElem?_set_self hs1, hln]
          rfl
        · rw [List.getElem?_set_self hs2, hrn]
          rfl
    · intro k hk
      rw [List.getElem?_set_ne (by omega), List.getElem?_set_ne (by omega)]
      exact hrest k (by omega)

/-- Bound on the decimation index: for `i < WAVEFORM_LENGTH = 1024` the index
`jIdx i = toNat of the floor of i / 1024 * 2205` is at most `2202`. -/
theorem jIdx_le (i : Nat) (h : i < WAVEFORM_LENGTH) : jIdx i ≤ 2202 := by
  have hq : (batch_length : ℚ) = 2205 := by norm_num [batch_length, SAMPLE_RATE]
  have hw : (WAVEFORM_LENGTH : ℚ) = 1024 := by norm_num [WAVEFORM_LENGTH]
  have hi : (i : ℚ) ≤ 1023 := by
    have hi0 : i ≤ 1023 := by
      have h2 := h
      unfold WAVEFORM_LENGTH at h2
      omega
    exact_mod_cast hi0
  have hp : (i : ℚ) / 1024 * 2205 < 2203 := by
    rw [div_mul_eq_mul_div, div_lt_iff₀ (by norm_num)]
    nlinarith
  have hfl : ⌊(i : ℚ) / 1024 * 2205⌋ < 2203 :=
    Int.floor_lt.mpr (by exact_mod_cast hp)
  unfold jIdx
  rw [hq, hw]
  exact Int.toNat_le.mpr (by omega)

/-- Characterization of the snapshot-publishing loop: when every decimation
index lands inside the rendered buffers and the relay buffer is long enough,
the loop succeeds, preserves the relay length, stores the channel sum
`left[jIdx i] + right[jIdx i]` at every processed position `i < n`, and leaves
all positions from `n` on untouched. -/
theorem publishWave_spec (left right wave : List ℚ) :
    ∀ n, (∀ i, i < n → jIdx i < left.length ∧ jIdx i < right.length) →
      n ≤ wave.length →
      ∃ w, publishWave left right wave n = some w ∧
        w.length = wave.length ∧
        (∀ i, i < n → ∃ l r, left[jIdx i]? = some l ∧ right[jIdx i]? = some r ∧
          w[i]? = some (l + r)) ∧
        (∀ k, n ≤ k → w[k]? = wave[k]?) := by
  intro n
  induction n with
  | zero =>
    intro _ _
    exact ⟨wave, rfl, rfl, fun i hi => absurd hi (Nat.not_lt_zero i),
      fun k _ => rfl⟩
  | succ n ih =>
    intro hj hw
    obtain ⟨w, hpw, hlen, hdone, hrest⟩ := ih (fun i hi => hj i (by omega)) (by omega)
    have hjl : jIdx n < left.length := (hj n (by omega)).1
    have hjr : jIdx n < right.length := (hj n (by omega)).2
    have hln : left[jIdx n]? = some left[jIdx n] := List.getElem?_eq_getElem hjl
    have hrn : right[jIdx n]? = some right[jIdx n] := List.getElem?_eq_getElem hjr
    have hs : n < w.length := by omega
    refine ⟨w.set n (left[jIdx n] + right[jIdx n]), ?_, ?_, ?_, ?_⟩
    · simp only [publishWave, hpw, hln, hrn, Option.bind_eq_bind,
        Option.some_bind, setOpt_some _ _ _ hs]
    · rw [List.length_set, hlen]
    · intro i hi
      rcases Nat.lt_succ_iff_lt_or_eq.mp hi with h | h
      · obtain ⟨l, r, hl, hr, hwi⟩ := hdone i h
        exact ⟨l, r, hl, hr, by rw [List.getElem?_set_ne (by omega)]; exact hwi⟩
      · subst h
        exact ⟨_, _, hln, hrn, List.getElem?_set_self hs⟩
    · intro k hk
      rw [List.getElem?_set_ne (by omega)]
      exact hrest k (by omega)

/-- A successful run of the snapshot-publishing loop always preserves the
relay-buffer length, for arbitrary inputs. -/
theorem publishWave_some_length (left right wave : List ℚ) :
    ∀ n w, publishWave left right wave n = some w → w.length = wave.length := by
  intro n
  induction n with
  | zero =>
    intro w h
    simp only [publishWave] at h
    obtain rfl := Option.some.inj h
    rfl
  | succ n ih =>
    intro w h
    simp only [publishWave, Option.bind_eq_bind] at h
    rcases hpw : publishWave left right wave n with _ | w0 <;> rw [hpw] at h
    · simp at h
    · simp only [Option.some_bind] at h
      rcases hl : left[jIdx n]? with _ | l <;> rw [hl] at h
      · simp at h
      · simp only [Option.some_bind] at h
        rcases hr : right[jIdx n]? with _ | r <;> rw [hr] at h
        · simp at h
        · simp only [Option.some_bind] at h
          obtain ⟨hlt, rfl⟩ := setOpt_eq_some h
          rw [List.length_set]
          exact ih w0 hpw

/-- A successful run of the snapshot-publishing loop writes only positions
below `n`: every position from `n` on is unchanged, for arbitrary inputs. -/
theorem publishWave_stable (left right wave : List ℚ) :
    ∀ n w, publishWave left right wave n = some w →
      ∀ k, n ≤ k → w[k]? = wave[k]? := by
  intro n
  induction n with
  | zero =>
    intro w h k _
    simp only [publishWave] at h
    obtain rfl := Option.some.inj h
    rfl
  | succ n ih =>
    intro w h k hk
    simp only [publishWave, Option.bind_eq_bind] at h
    rcases hpw : publishWave left right wave n with _ | w0 <;> rw [hpw] at h
    · simp at h
    · simp only [Option.some_bind] at h
      rcases hl : left[jIdx n]? with _ | l <;> rw [hl] at h
      · simp at h
      · simp only [Option.some_bind] at h
        rcases hr : right[jIdx n]? with _ | r <;> rw [hr] at h
        · simp at h
        · simp only [Option.some_bind] at h
          obtain ⟨hlt, rfl⟩ := setOpt_eq_some h
          rw [List.getElem?_set_ne (by omega)]
          exact ih w0 hpw k (by omega)

/-- Characterization of the waveform-smoothing loop: when both buffers are
long enough it succeeds, preserves the waveform length, stores
`0.5 * waveform[i] + 0.5 * a[i]` at every processed position `i < n`, and
leaves all positions from `n` on untouched. -/
theorem smoothWaveform_spec (a waveform : List ℚ) :
    ∀ n, n ≤ waveform.length → n ≤ a.length →
      ∃ w, smoothWaveform a waveform n = some w ∧
        w.length = waveform.length ∧
        (∀ i, i < n → ∃ wi ai, waveform[i]? = some wi ∧ a[i]? = some ai ∧
          w[i]? = some (1 / 2 * wi + 1 / 2 * ai)) ∧
        (∀ k, n ≤ k → w[k]? = waveform[k]?) := by
  intro n
  induction n with
  | zero =>
    intro _ _
    exact ⟨waveform, rfl, rfl, fun i hi => absurd hi (Nat.not_lt_zero i),
      fun k _ => rfl⟩
  | succ n ih =>
    intro h1 h2
    obtain ⟨w, hsw, hlen, hdone, hrest⟩ := ih (by omega) (by omega)
    have hnw : n < waveform.length := by omega
    have hna : n < a.length := by omega
    have hwn : w[n]? = some waveform[n] := by
      rw [hrest n (by omega)]
      exact List.getElem?_eq_getElem hnw
    have han : a[n]? = some a[n] := List.getElem?_eq_getElem hna
    have hs : n < w.length := by omega
    refine ⟨w.set n (1 / 2 * waveform[n] + 1 / 2 * a[n]), ?_, ?_, ?_, ?_⟩
    · simp only [smoothWaveform, hsw, hwn, han, Option.bind_eq_bind,
        Option.some_bind, setOpt_some _ _ _ hs]
    · rw [List.length_set, hlen]
    · intro i hi
      rcases Nat.lt_succ_iff_lt_or_eq.mp hi with h | h
      · obtain ⟨wi, ai, hwi, hai, hv⟩ := hdone i h
        exact ⟨wi, ai, hwi, hai, by rw [List.getElem?_set_ne (by omega)]; exact hv⟩
      · subst h
        exact ⟨_, _, List.getElem?_eq_getElem hnw, han, List.getElem?_set_self hs⟩
    · intro k hk
      rw [List.getElem?_set_ne (by omega)]
      exact hrest k (by omega)

/-- The render-loop read of the relay buffer leaves the relay buffer itself
unchanged: a successful render iteration returns the relay as it found it. -/
theorem renderIteration_relay (relay wf : List ℚ) :
    ∀ out, renderIteration relay wf = some out → out.1 = relay := by
  intro out h
  simp only [renderIteration, Option.bind_eq_bind] at h
  rcases hs : smoothWaveform relay wf WAVEFORM_LENGTH with _ | w <;> rw [hs] at h
  · simp at h
  · simp only [Option.some_bind] at h
    obtain rfl := Option.some.inj h
    rfl

/-- Characterization of the vertex-filling loop of `draw_waveform`: with the
data and vertex buffers long enough it succeeds, preserves the vertex-array
length, and fills quad `i` (vertices `4i .. 4i + 3`) with the bar spanning
`x ∈ [i, i + 1]`, from `y = -300 |data[i]| + 384` down to
`y = 300 |data[i]| + 384`, in color `rgb(0, 100, 200)`. -/
theorem drawLoop_spec (data : List ℚ) (vs : List Vertex) :
    ∀ n, n ≤ data.length → 4 * n ≤ vs.length →
      ∃ v, drawLoop data vs n = some v ∧
        v.length = vs.length ∧
        (∀ i, i < n → ∃ d, data[i]? = some d ∧
          v[4 * i]? = some ⟨⟨0, 100, 200⟩, ((i : ℚ), -300 * |d| + 384)⟩ ∧
          v[4 * i + 1]? = some ⟨⟨0, 100, 200⟩, ((i : ℚ) + 1, -300 * |d| + 384)⟩ ∧
          v[4 * i + 2]? = some ⟨⟨0, 100, 200⟩, ((i : ℚ) + 1, 300 * |d| + 384)⟩ ∧
          v[4 * i + 3]? = some ⟨⟨0, 100, 200⟩, ((i : ℚ), 300 * |d| + 384)⟩) ∧
        (∀ k, 4 * n ≤ k → v[k]? = vs[k]?) := by
  intro n
  induction n with
  | zero =>
    intro _ _
    exact ⟨vs, rfl, rfl, fun i hi => absurd hi (Nat.not_lt_zero i),
      fun k _ => rfl⟩
  | succ n ih =>
    intro h1 h2
    obtain ⟨v, hv, hlen, hdone, hrest⟩ := ih (by omega) (by omega)
    have hnd : n < data.length := by omega
    have hdn : data[n]? = some data[n] := List.getElem?_eq_getElem hnd
    have hb0 : 4 * n < v.length := by omega
    have hb1 : 4 * n + 1 < (v.set (4 * n) (⟨⟨0, 100, 200⟩, ((n : ℚ), -300 * |data[n]| + 384)⟩ : Vertex)).length := by
      rw [List.length_set]; omega
    have hb2 : 4 * n + 2 < ((v.set (4 * n) (⟨⟨0, 100, 200⟩, ((n : ℚ), -300 * |data[n]| + 384)⟩ : Vertex)).set (4 * n + 1) (⟨⟨0, 100, 200⟩, ((n : ℚ) + 1, -300 * |data[n]| + 384)⟩ : Vertex)).length := by
      rw [List.length_set, List.length_set]; omega
    have hb3 : 4 * n + 3 < (((v.set (4 * n) (⟨⟨0, 100, 200⟩, ((n : ℚ), -300 * |data[n]| + 384)⟩ : Vertex)).set (4 * n + 1) (⟨⟨0, 100, 200⟩, ((n : ℚ) + 1, -300 * |data[n]| + 384)⟩ : Vertex)).set (4 * n + 2) (⟨⟨0, 100, 200⟩, ((n : ℚ) + 1, 300 * |data[n]| + 384)⟩ : Vertex)).length := by
      rw [List.length_set, List.length_set, List.length_set]; omega
    refine ⟨(((v.set (4 * n) (⟨⟨0, 100, 200⟩, ((n : ℚ), -300 * |data[n]| + 384)⟩ : Vertex)).set (4 * n + 1) (⟨⟨0, 100, 200⟩, ((n : ℚ) + 1, -300 * |data[n]| + 384)⟩ : Vertex)).set (4 * n + 2) (⟨⟨0, 100, 200⟩, ((n : ℚ) + 1, 300 * |data[n]| + 384)⟩ : Vertex)).set (4 * n + 3) (⟨⟨0, 100, 200⟩, ((n : ℚ), 300 * |data[n]| + 384)⟩ : Vertex), ?_, ?_, ?_, ?_⟩
    · simp only [drawLoop, hv, hdn, Option.bind_eq_bind, Option.some_bind,
        setOpt_some _ _ _ hb0, setOpt_some _ _ _ hb1, setOpt_some _ _ _ hb2,
        setOpt_some _ _ _ hb3]
    · rw [List.length_set, List.length_set, List.length_set, List.length_set,
        hlen]
    · intro i hi
      rcases Nat.lt_succ_iff_lt_or_eq.mp hi with h | h
      · obtain ⟨d, hd, hq0, hq1, hq2, hq3⟩ := hdone i h
        refine ⟨d, hd, ?_, ?_, ?_, ?_⟩
        · rw [List.getElem?_set_ne (by omega), List.getElem?_set_ne (by omega),
            List.getElem?_set_ne (by omega), List.getElem?_set_ne (by omega)]
          exact hq0
        · rw [List.getElem?_set_ne (by omega), List.getElem?_set_ne (by omega),
            List.getElem?_set_ne (by omega), List.getElem?_set_ne (by omega)]
          exact hq1
        · rw [List.getElem?_set_ne (by omega), List.getElem?_set_ne (by omega),
            List.getElem?_set_ne (by omega), List.getElem?_set_ne (by omega)]
          exact hq2
        · rw [List.getElem?_set_ne (by omega), List.getElem?_set_ne (by omega),
            List.getElem?_set_ne (by omega), List.getElem?_set_ne (by omega)]
          exact hq3
      · subst h
        refine ⟨data[i], List.getElem?_eq_getElem hnd, ?_, ?_, ?_, ?_⟩
        · rw [List.getElem?_set_ne (by omega), List.getElem?_set_ne (by omega),
            List.getElem?_set_ne (by omega), List.getElem?_set_self hb0]
        · rw [List.getElem?_set_ne (by omega), List.getElem?_set_ne (by omega),
            List.getElem?_set_self hb1]
        · rw [List.getElem?_set_ne (by omega), List.getElem?_set_self hb2]
        · rw [List.getElem?_set_self hb3]
    · intro k hk
      rw [List.getElem?_set_ne (by omega), List.getElem?_set_ne (by omega),
        List.getElem?_set_ne (by omega), List.getElem?_set_ne (by omega)]
      exact hrest k (by omega)

/-- Reading a mapped range list at an in-range index yields the mapped
value: the contents `sequencer.render` left in a buffer of length `L`. -/
theorem mapRange_getElem (f : Nat → ℚ) (L j : Nat) (h : j < L) :
    ((List.range L).map f)[j]? = some (f j) := by
  rw [List.getElem?_map, List.getElem?_range h]
  rfl

/-- Combined characterization of one `get_data` call from a state satisfying
the length invariant: it succeeds, returns the continuation flag `true`, the
full batch of `2 * batch_length` interleaved converted samples (left channel
at `2t`, right at `2t + 1`), and publishes into the relay buffer the
decimated channel sums `fL (jIdx i) + fR (jIdx i)` at every position
`i < WAVEFORM_LENGTH`, preserving the relay length. -/
theorem get_data_spec (s : MidiMusicStream) (wave : List ℚ) (fL fR : Nat → ℚ)
    (hs : goodStream s) (hw : wave.length = WAVEFORM_LENGTH) :
    ∃ s2 b w2, get_data s wave fL fR = some (s2, w2, b, true) ∧
      s2.left = (List.range s.left.length).map fL ∧
      s2.right = (List.range s.right.length).map fR ∧
      s2.batch = b ∧
      b.length = 2 * batch_length ∧
      (∀ t, t < batch_length → b[2 * t]? = some (convertSample (fL t)) ∧
        b[2 * t + 1]? = some (convertSample (fR t))) ∧
      w2.length = wave.length ∧
      (∀ i, i < WAVEFORM_LENGTH → w2[i]? = some (fL (jIdx i) + fR (jIdx i))) := by
  have hbl : batch_length = 2205 := by norm_num [batch_length, SAMPLE_RATE]
  obtain ⟨hsl, hsr, hsb⟩ := hs
  have hLlen : ((List.range s.left.length).map fL).length = batch_length := by
    simp [hsl]
  have hRlen : ((List.range s.right.length).map fR).length = batch_length := by
    simp [hsr]
  obtain ⟨b, hwb, hblen, hbdone, _⟩ :=
    writeBatch_spec ((List.range s.left.length).map fL)
      ((List.range s.right.length).map fR) s.batch
      ((List.range s.left.length).map fL).length
      (le_refl _) (by omega) (by omega)
  obtain ⟨w2, hpw, hwlen, hwdone, _⟩ :=
    publishWave_spec ((List.range s.left.length).map fL)
      ((List.range s.right.length).map fR) wave WAVEFORM_LENGTH
      (fun i hi => by
        have hj := jIdx_le i hi
        constructor <;> omega)
      (by omega)
  refine ⟨{ left := (List.range s.left.length).map fL,
            right := (List.range s.right.length).map fR,
            batch := b }, b, w2, ?_, rfl, rfl, rfl, by omega, ?_, hwlen, ?_⟩
  · simp only [get_data, Option.bind_eq_bind]
    rw [hwb]
    simp only [Option.some_bind]
    rw [hpw]
    simp only [Option.some_bind]
  · intro t ht
    obtain ⟨h1, h2⟩ := hbdone t (by omega)
    constructor
    · rw [h1, mapRange_getElem fL _ t (by omega)]
      rfl
    · rw [h2, mapRange_getElem fR _ t (by omega)]
      rfl
  · intro i hi
    obtain ⟨l, r, hl, hr, hw2⟩ := hwdone i hi
    have hj := jIdx_le i hi
    rw [mapRange_getElem fL _ (jIdx i) (by omega)] at hl
    rw [mapRange_getElem fR _ (jIdx i) (by omega)] at hr
    obtain rfl := Option.some.inj hl
    obtain rfl := Option.some.inj hr
    exact hw2

/-- Whenever a `get_data` call completes (returns `some`), its continuation
flag component is the literal `true`. -/
theorem get_data_some_flag (s : MidiMusicStream) (wave : List ℚ)
    (fL fR : Nat → ℚ) :
    ∀ r, get_data s wave fL fR = some r → r.2.2.2 = true := by
  intro r h
  simp only [get_data, Option.bind_eq_bind] at h
  rcases hwb : writeBatch ((List.range s.left.length).map fL)
      ((List.range s.right.length).map fR) s.batch
      ((List.range s.left.length).map fL).length with _ | b <;> rw [hwb] at h
  · simp at h
  · simp only [Option.some_bind] at h
    rcases hpw : publishWave ((List.range s.left.length).map fL)
        ((List.range s.right.length).map fR) wave WAVEFORM_LENGTH
        with _ | w <;> rw [hpw] at h
    · simp at h
    · simp only [Option.some_bind] at h
      obtain rfl := Option.some.inj h
      rfl

/-- The decimation index of the first snapshot entry is the first block
frame. -/
theorem jIdx_zero : jIdx 0 = 0 := by
  simp [jIdx]

/-! ## C2 -/

/-- C2 counterexample: at the concrete run from the initial stream state with
the sequencer rendering the constant sample `1` on both channels, the claim
"every published entry is a copy of a single block sample at the decimated
position" fails: entry `0` equals `2`, while both block samples at position
`jIdx 0` are `1`. -/
theorem C2_counterexample :
    ¬ (∀ s2 w2 b,
        get_data MidiMusicStream.new wavInit (fun _ => 1) (fun _ => 1) =
          some (s2, w2, b, true) →
        ∀ i, i < WAVEFORM_LENGTH →
          w2[i]? = s2.left[jIdx i]? ∨ w2[i]? = s2.right[jIdx i]?) := by
  intro hclaim
  obtain ⟨s2, b, w2, heq, hsl, hsr, _, _, _, _, hpub⟩ :=
    get_data_spec MidiMusicStream.new wavInit (fun _ => 1) (fun _ => 1)
      (by simp [goodStream, MidiMusicStream.new]) (by simp [wavInit])
  have h0 := hclaim s2 w2 b heq 0 (by norm_num [WAVEFORM_LENGTH])
  have hw0 : w2[0]? = some ((1 : ℚ) + 1) := hpub 0 (by norm_num [WAVEFORM_LENGTH])
  have hL0 : s2.left[jIdx 0]? = some (1 : ℚ) := by
    rw [hsl, jIdx_zero]
    refine mapRange_getElem _ _ 0 ?_
    show 0 < (List.replicate batch_length (0 : ℚ)).length
    rw [List.length_replicate]
    norm_num [batch_length, SAMPLE_RATE]
  have hR0 : s2.right[jIdx 0]? = some (1 : ℚ) := by
    rw [hsr, jIdx_zero]
    refine mapRange_getElem _ _ 0 ?_
    show 0 < (List.replicate batch_length (0 : ℚ)).length
    rw [List.length_replicate]
    norm_num [batch_length, SAMPLE_RATE]
  rcases h0 with h | h
  · rw [hw0, hL0] at h
    have h2 := Option.some.inj h
    norm_num at h2
  · rw [hw0, hR0] at h
    have h2 := Option.some.inj h
    norm_num at h2

/-- C2 (amended): after every `get_data` callback the relay buffer holds a
decimated copy of the current block in which entry `i` is the SUM of the left
and right block samples at the decimated position `jIdx i` (the truncation of
`(i / 1024) * batch_length`), rather than a copy of a single channel
sample. -/
theorem C2_snapshot_channel_sum (s : MidiMusicStream) (wave : List ℚ)
    (fL fR : Nat → ℚ) (hs : goodStream s)
    (hw : wave.length = WAVEFORM_LENGTH) :
    ∃ s2 w2 b, get_data s wave fL fR = some (s2, w2, b, true) ∧
      ∀ i, i < WAVEFORM_LENGTH →
        ∃ l r, s2.left[jIdx i]? = some l ∧ s2.right[jIdx i]? = some r ∧
          w2[i]? = some (l + r) := by
  obtain ⟨s2, b, w2, heq, hsl, hsr, _, _, _, _, hpub⟩ :=
    get_data_spec s wave fL fR hs hw
  have hbl : batch_length = 2205 := by norm_num [batch_length, SAMPLE_RATE]
  obtain ⟨hssl, hssr, _⟩ := hs
  refine ⟨s2, w2, b, heq, fun i hi => ?_⟩
  have hj := jIdx_le i hi
  refine ⟨fL (jIdx i), fR (jIdx i), ?_, ?_, hpub i hi⟩
  · rw [hsl]
    exact mapRange_getElem _ _ _ (by omega)
  · rw [hsr]
    exact mapRange_getElem _ _ _ (by omega)

/-- Witness for C2 (amended) at the initial state with a constant-`1`
rendering oracle. -/
theorem C2_snapshot_channel_sum_witness :
    ∃ s2 w2 b,
      get_data MidiMusicStream.new wavInit (fun _ => 1) (fun _ => 1) =
        some (s2, w2, b, true) ∧
      ∀ i, i < WAVEFORM_LENGTH →
        ∃ l r, s2.left[jIdx i]? = some l ∧ s2.right[jIdx i]? = some r ∧
          w2[i]? = some (l + r) :=
  C2_snapshot_channel_sum MidiMusicStream.new wavInit (fun _ => 1) (fun _ => 1)
    (by simp [goodStream, MidiMusicStream.new]) (by simp [wavInit])

/-! ## C3 -/

/-- C3: every `get_data` call renders exactly one block of
`batch_length = 44100 / 20 = 2205` frames per channel, and returns a batch of
exactly `2 * 2205` interleaved samples with the converted left sample of
frame `t` at index `2t` and the right at `2t + 1`; the resulting state again
satisfies the length invariant, so the block size is the same on every
callback. -/
theorem C3_fixed_block (s : MidiMusicStream) (wave : List ℚ) (fL fR : Nat → ℚ)
    (hs : goodStream s) (hw : wave.length = WAVEFORM_LENGTH) :
    batch_length = 2205 ∧ SAMPLE_RATE / 20 = 2205 ∧
    goodStream MidiMusicStream.new ∧
    ∃ s2 w2 b, get_data s wave fL fR = some (s2, w2, b, true) ∧
      s2.left.length = batch_length ∧ s2.right.length = batch_length ∧
      b.length = 2 * batch_length ∧ goodStream s2 ∧
      (∀ t, t < batch_length → b[2 * t]? = some (convertSample (fL t)) ∧
        b[2 * t + 1]? = some (convertSample (fR t))) := by
  obtain ⟨s2, b, w2, heq, hsl, hsr, hsb2, hblen, hbdone, _, _⟩ :=
    get_data_spec s wave fL fR hs hw
  obtain ⟨hssl, hssr, _⟩ := hs
  have hsl2 : s2.left.length = batch_length := by
    rw [hsl]
    simp [hssl]
  have hsr2 : s2.right.length = batch_length := by
    rw [hsr]
    simp [hssr]
  refine ⟨by norm_num [batch_length, SAMPLE_RATE], by norm_num [SAMPLE_RATE],
    by simp [goodStream, MidiMusicStream.new], s2, w2, b, heq, hsl2, hsr2,
    hblen, ⟨hsl2, hsr2, ?_⟩, hbdone⟩
  rw [hsb2]
  exact hblen

/-- Witness for C3 at the initial state with a silent rendering oracle. -/
theorem C3_fixed_block_witness :
    ∃ s2 w2 b,
      get_data MidiMusicStream.new wavInit (fun _ => 0) (fun _ => 0) =
        some (s2, w2, b, true) ∧
      b.length = 2 * batch_length ∧ goodStream s2 := by
  obtain ⟨_, _, _, s2, w2, b, heq, _, _, hblen, hgood, _⟩ :=
    C3_fixed_block MidiMusicStream.new wavInit (fun _ => 0) (fun _ => 0)
      (by simp [goodStream, MidiMusicStream.new]) (by simp [wavInit])
  exact ⟨s2, w2, b, heq, hblen, hgood⟩

/-! ## C4 -/

/-- C4: every render-loop iteration updates the displayed waveform by
exponential smoothing against the relayed snapshot read under the relay
mutex: entry `i` becomes `(1 - a) * old + a * snapshot[i]` with the fixed
coefficient `a = 1/2`, and the relay itself is returned unchanged by the
locked read. -/
theorem C4_exponential_smoothing (relay waveform : List ℚ)
    (h1 : waveform.length = WAVEFORM_LENGTH)
    (h2 : relay.length = WAVEFORM_LENGTH) :
    ∃ out, renderIteration relay waveform = some out ∧ out.1 = relay ∧
      ∀ i, i < WAVEFORM_LENGTH → ∃ wi ai, waveform[i]? = some wi ∧
        relay[i]? = some ai ∧
        out.2[i]? = some ((1 - 1 / 2) * wi + 1 / 2 * ai) := by
  obtain ⟨w, hsw, _, hdone, _⟩ :=
    smoothWaveform_spec relay waveform WAVEFORM_LENGTH (by omega) (by omega)
  refine ⟨(relay, w), ?_, rfl, ?_⟩
  · simp only [renderIteration, Option.bind_eq_bind]
    rw [hsw]
    simp only [Option.some_bind]
  · intro i hi
    obtain ⟨wi, ai, hwi, hai, hv⟩ := hdone i hi
    refine ⟨wi, ai, hwi, hai, ?_⟩
    show w[i]? = _
    rw [hv]
    norm_num

/-- Witness for C4 on the all-zero relay and waveform buffers. -/
theorem C4_exponential_smoothing_witness :
    ∃ out, renderIteration wavInit wavInit = some out ∧ out.1 = wavInit ∧
      ∀ i, i < WAVEFORM_LENGTH → ∃ wi ai, wavInit[i]? = some wi ∧
        wavInit[i]? = some ai ∧
        out.2[i]? = some ((1 - 1 / 2) * wi + 1 / 2 * ai) :=
  C4_exponential_smoothing wavInit wavInit (by simp [wavInit])
    (by simp [wavInit])

/-! ## C5 -/

/-- C5: the decimation index of the publish step is always in bounds: for
every `i < 1024`, `jIdx i ≤ 2202 < 2205`, so with the left and right buffers
of length `2205` the `Option`-returning indexing `left[jIdx i]` /
`right[jIdx i]` always succeeds and the whole snapshot-publishing loop
reaches no error branch. -/
theorem C5_decimation_in_bounds (left right : List ℚ)
    (hL : left.length = 2205) (hR : right.length = 2205) :
    (∀ i, i < WAVEFORM_LENGTH → jIdx i ≤ 2202 ∧ 2202 < 2205 ∧
      (left[jIdx i]?).isSome = true ∧ (right[jIdx i]?).isSome = true) ∧
    (∀ wave, WAVEFORM_LENGTH ≤ wave.length →
      (publishWave left right wave WAVEFORM_LENGTH).isSome = true) := by
  constructor
  · intro i hi
    have hj := jIdx_le i hi
    refine ⟨hj, by norm_num, ?_, ?_⟩
    · rw [List.getElem?_eq_getElem (by omega)]
      rfl
    · rw [List.getElem?_eq_getElem (by omega)]
      rfl
  · intro wave hwv
    obtain ⟨w, hp, _, _, _⟩ := publishWave_spec left right wave WAVEFORM_LENGTH
      (fun i hi => by
        have := jIdx_le i hi
        constructor <;> omega) hwv
    rw [hp]
    rfl

/-- Witness for C5 on all-zero buffers of length 2205. -/
theorem C5_decimation_in_bounds_witness :
    ((List.replicate 2205 (0 : ℚ))[jIdx 0]?).isSome = true ∧
    (publishWave (List.replicate 2205 (0 : ℚ)) (List.replicate 2205 (0 : ℚ))
      wavInit WAVEFORM_LENGTH).isSome = true := by
  have h := C5_decimation_in_bounds (List.replicate 2205 0)
    (List.replicate 2205 0) (by rw [List.length_replicate])
    (by rw [List.length_replicate])
  exact ⟨(h.1 0 (by norm_num [WAVEFORM_LENGTH])).2.2.1,
    h.2 wavInit (by simp [wavInit])⟩

/-! ## C6 -/

/-- C6: the relay buffer is fixed-size: it is created with length
`WAVEFORM_LENGTH = 1024`; the audio-thread publish preserves its length and
touches no index at or above `WAVEFORM_LENGTH`; and the render-thread read
returns the relay unchanged.  No operation resizes it. -/
theorem C6_relay_fixed_size (left right wave relay waveform : List ℚ) :
    wavInit.length = WAVEFORM_LENGTH ∧ WAVEFORM_LENGTH = 1024 ∧
    (∀ w, publishWave left right wave WAVEFORM_LENGTH = some w →
      w.length = wave.length ∧ ∀ k, WAVEFORM_LENGTH ≤ k → w[k]? = wave[k]?) ∧
    (∀ out, renderIteration relay waveform = some out → out.1 = relay) :=
  ⟨by simp [wavInit], rfl,
   fun w h => ⟨publishWave_some_length left right wave WAVEFORM_LENGTH w h,
     publishWave_stable left right wave WAVEFORM_LENGTH w h⟩,
   fun out h => renderIteration_relay relay waveform out h⟩

/-- Witness for C6 on a concrete publish and a concrete render read. -/
theorem C6_relay_fixed_size_witness :
    ∃ w, publishWave (List.replicate 2205 (1 : ℚ)) (List.replicate 2205 1)
        wavInit WAVEFORM_LENGTH = some w ∧ w.length = wavInit.length ∧
      ∃ out, renderIteration wavInit wavInit = some out ∧ out.1 = wavInit := by
  obtain ⟨w, hp, _, _, _⟩ := publishWave_spec (List.replicate 2205 1)
    (List.replicate 2205 1) wavInit WAVEFORM_LENGTH
    (fun i hi => by
      have := jIdx_le i hi
      constructor <;> (rw [List.length_replicate]; omega))
    (by simp [wavInit])
  obtain ⟨w2, hsw, _, _, _⟩ := smoothWaveform_spec wavInit wavInit
    WAVEFORM_LENGTH (by simp [wavInit]) (by simp [wavInit])
  have hre : renderIteration wavInit wavInit = some (wavInit, w2) := by
    simp only [renderIteration, Option.bind_eq_bind]
    rw [hsw]
    simp only [Option.some_bind]
  refine ⟨w, hp,
    ((C6_relay_fixed_size (List.replicate 2205 1) (List.replicate 2205 1)
      wavInit wavInit wavInit).2.2.1 w hp).1,
    (wavInit, w2), hre,
    (C6_relay_fixed_size (List.replicate 2205 1) (List.replicate 2205 1)
      wavInit wavInit wavInit).2.2.2 (wavInit, w2) hre⟩

/-! ## C7 -/

/-- C7: the event loop closes the window only on a polled `Closed` event: a
`Closed` event sets the open flag to `false`, every other event leaves it
unchanged, and after processing a poll batch the window is closed exactly
when it was already closed or some `Closed` event was polled — so the loop
never terminates without a `Closed` event having been received. -/
theorem C7_close_only_on_closed (isOpen : Bool) (evs : List SfmlEvent) :
    (∀ w, handleEvent w SfmlEvent.Closed = false) ∧
    (∀ w k, handleEvent w (SfmlEvent.Other k) = w) ∧
    (pollEvents isOpen evs = false ↔ isOpen = false ∨ SfmlEvent.Closed ∈ evs) := by
  refine ⟨fun w => rfl, fun w k => rfl, ?_⟩
  induction evs generalizing isOpen with
  | nil => simp [pollEvents]
  | cons e t ih =>
    cases e with
    | Closed =>
      constructor
      · intro _
        exact Or.inr (List.mem_cons_self _ _)
      · intro _
        exact (ih false).mpr (Or.inl rfl)
    | Other k =>
      constructor
      · intro hp
        rcases (ih isOpen).mp hp with h | h
        · exact Or.inl h
        · exact Or.inr (List.mem_cons_of_mem _ h)
      · intro hor
        rcases hor with h | h
        · exact (ih isOpen).mpr (Or.inl h)
        · rcases List.mem_cons.mp h with h2 | h2
          · exact absurd h2 (by simp)
          · exact (ih isOpen).mpr (Or.inr h2)

/-! ## C8 -/

/-- C8: every completed `get_data` call returns the continuation flag `true`,
for every stream state and every rendering oracle (in particular also after
the MIDI file has finished playing, when the sequencer renders silence):
the adapter never signals end-of-stream. -/
theorem C8_continuation_flag (s : MidiMusicStream) (wave : List ℚ)
    (fL fR : Nat → ℚ) (r : MidiMusicStream × List ℚ × List Int × Bool)
    (h : get_data s wave fL fR = some r) : r.2.2.2 = true :=
  get_data_some_flag s wave fL fR r h

/-- Witness for C8 on a concrete completed call. -/
theorem C8_continuation_flag_witness :
    ∃ r, get_data MidiMusicStream.new wavInit (fun _ => 0) (fun _ => 0) =
      some r ∧ r.2.2.2 = true := by
  obtain ⟨s2, b, w2, heq, _, _, _, _, _, _, _⟩ :=
    get_data_spec MidiMusicStream.new wavInit (fun _ => 0) (fun _ => 0)
      (by simp [goodStream, MidiMusicStream.new]) (by simp [wavInit])
  exact ⟨(s2, w2, b, true), heq,
    C8_continuation_flag MidiMusicStream.new wavInit _ _ _ heq⟩

/-! ## C9 -/

/-- C9: with fewer than two command-line arguments (after the program name),
`main` prints the specific error message and the usage line and returns
immediately: its effect trace is exactly the error print followed by the
usage print, and contains no window creation, no file open and no playback
start. -/
theorem C9_missing_args_usage (argv : List String)
    (h : (argv.drop 1).length < 2) :
    ((argv.drop 1).length = 0 →
      mainEffects argv = [Effect.printErr msgMissingSoundfont,
        Effect.printUsage]) ∧
    ((argv.drop 1).length = 1 →
      mainEffects argv = [Effect.printErr msgMissingMidiFile,
        Effect.printUsage]) ∧
    Effect.createWindow ∉ mainEffects argv ∧
    (∀ p, Effect.openFile p ∉ mainEffects argv) ∧
    Effect.startPlayback ∉ mainEffects argv := by
  rcases hd : argv.drop 1 with _ | ⟨a, _ | ⟨b, t⟩⟩
  · refine ⟨fun _ => ?_, fun habs => ?_, ?_, ?_, ?_⟩
    · simp [mainEffects, hd]
    · simp at habs
    · simp [mainEffects, hd]
    · intro p
      simp [mainEffects, hd]
    · simp [mainEffects, hd]
  · refine ⟨fun habs => ?_, fun _ => ?_, ?_, ?_, ?_⟩
    · simp at habs
    · simp [mainEffects, hd]
    · simp [mainEffects, hd]
    · intro p
      simp [mainEffects, hd]
    · simp [mainEffects, hd]
  · exfalso
    rw [hd] at h
    simp only [List.length_cons] at h
    omega

/-- Witness for C9 with zero and with one supplied argument. -/
theorem C9_missing_args_usage_witness :
    mainEffects ["rustysynth-test"] =
      [Effect.printErr msgMissingSoundfont, Effect.printUsage] ∧
    mainEffects ["rustysynth-test", "font.sf2"] =
      [Effect.printErr msgMissingMidiFile, Effect.printUsage] :=
  ⟨(C9_missing_args_usage ["rustysynth-test"] (by simp)).1 (by simp),
   (C9_missing_args_usage ["rustysynth-test", "font.sf2"]
     (by simp)).2.1 (by simp)⟩

/-! ## C10 -/

/-- C10: each frame the waveform is drawn as exactly one quad (four vertices)
per entry: the vertex array has length `4 * 1024`, and quad `i` spans `x`
from `i` to `i + 1` with top edge `y = -300|data[i]| + 384` and bottom edge
`y = 300|data[i]| + 384` — vertically symmetric about `y = 384`, extending
`300 * |data[i]| ≥ 0` above and below it, so the bar height depends on the
absolute value only. -/
theorem C10_waveform_quads (data : List ℚ)
    (h : data.length = WAVEFORM_LENGTH) :
    ∃ v, draw_waveform data = some v ∧ v.length = 4 * WAVEFORM_LENGTH ∧
      ∀ i, i < WAVEFORM_LENGTH → ∃ d, data[i]? = some d ∧
        v[4 * i]? = some ⟨⟨0, 100, 200⟩, ((i : ℚ), -300 * |d| + 384)⟩ ∧
        v[4 * i + 1]? = some ⟨⟨0, 100, 200⟩, ((i : ℚ) + 1, -300 * |d| + 384)⟩ ∧
        v[4 * i + 2]? = some ⟨⟨0, 100, 200⟩, ((i : ℚ) + 1, 300 * |d| + 384)⟩ ∧
        v[4 * i + 3]? = some ⟨⟨0, 100, 200⟩, ((i : ℚ), 300 * |d| + 384)⟩ ∧
        (384 : ℚ) - (-300 * |d| + 384) = 300 * |d| ∧
        (300 * |d| + 384 : ℚ) - 384 = 300 * |d| ∧
        (0 : ℚ) ≤ 300 * |d| := by
  obtain ⟨v, hv, hlen, hdone, _⟩ := drawLoop_spec data
    (List.replicate (4 * WAVEFORM_LENGTH) defaultVertex) WAVEFORM_LENGTH
    (by omega) (by simp)
  refine ⟨v, hv, by rw [hlen, List.length_replicate], fun i hi => ?_⟩
  obtain ⟨d, hd, h0, h1, h2, h3⟩ := hdone i hi
  exact ⟨d, hd, h0, h1, h2, h3, by ring, by ring, by positivity⟩

/-- Witness for C10 on the all-zero waveform buffer. -/
theorem C10_waveform_quads_witness :
    ∃ v, draw_waveform wavInit = some v ∧ v.length = 4 * WAVEFORM_LENGTH := by
  obtain ⟨v, hv, hlen, _⟩ := C10_waveform_quads wavInit (by simp [wavInit])
  exact ⟨v, hv, hlen⟩

end RustySynthTest
